import Mathlib

/-!
Verification of the task-dependency registry in `src/executor/task_graph.py`.

The embedding follows the source file directly:

* `serialize` / `deserialize` (lines 9-13) are `b64encode(pickle.dumps(obj))`
  and `pickle.loads(b64decode(text))`.  Base64 is embedded concretely over
  byte lists (`b64encodeBytes` / `b64decodeChars`, RFC 4648 as implemented by
  Python's `base64` module); the pickle layer is an external library and is
  kept abstract as a pair `dumps : V -> List Nat`, `loads : List Nat -> Option V`
  supplied by the caller, with the "supported domain" of a value expressed by
  the hypotheses that its bytes are bytes and that `loads (dumps v) = some v`.
  Decoding failure (Python's `binascii.Error` / unpickling errors) is `none`.

* `Task` (lines 15-21) is a record of its `name`, its callable, and an `id`
  modelling Python object identity: `Task` has no `__eq__`/`__hash__`, so
  dict keys compare by identity, and every `Task(...)` call yields a fresh
  object — modelled by the `nextId` allocator in `TaskGraph`.

* `TaskGraph` (lines 23-106) keeps its two `dict`s as insertion-ordered
  association lists.  `dictInsert` reproduces Python dict assignment
  (replace the value in place if the key is present, else append) and
  `dictFind` reproduces `d[k]` lookup; a `KeyError` is `none` at the lookup
  and surfaces as `TGError.UnknownTask` in `execute` / `dependencies`,
  matching the spec's error taxonomy.
-/

namespace Sched

/-- Alphabet of standard base64, as used by Python's `base64.b64encode`. -/
def b64Alphabet : List Char :=
  "ABCDEFGHIJKLMNOPQRSTUVWXYZabcdefghijklmnopqrstuvwxyz0123456789+/".toList

/-- Character for a six-bit group (the argument is assumed `< 64`). -/
def sextetChar (n : Nat) : Char := b64Alphabet.getD n '?'

/-- Position of a character in a character list, `none` when absent. -/
def sextetIndex (c : Char) : List Char → Option Nat
  | [] => none
  | a :: rest => if c = a then some 0 else (sextetIndex c rest).map (· + 1)

/-- Six-bit value of a base64 alphabet character, `none` for other characters. -/
def charSextet (c : Char) : Option Nat := sextetIndex c b64Alphabet

/-- Base64 encoding of a byte list: the behaviour of `base64.b64encode`
followed by `.decode("utf-8")` — three bytes become four alphabet
characters, a one- or two-byte tail is padded with `'='`. -/
def b64encodeBytes : List Nat → List Char
  | [] => []
  | [a] => [sextetChar (a / 4), sextetChar (a % 4 * 16), '=', '=']
  | [a, b] => [sextetChar (a / 4), sextetChar (a % 4 * 16 + b / 16),
               sextetChar (b % 16 * 4), '=']
  | a :: b :: c :: rest =>
      sextetChar (a / 4) :: sextetChar (a % 4 * 16 + b / 16) ::
      sextetChar (b % 16 * 4 + c / 64) :: sextetChar (c % 64) ::
      b64encodeBytes rest

/-- Base64 decoding: inverts `b64encodeBytes` on every encoding it produces
and returns `none` on malformed text (bad framing, characters outside the
alphabet, misplaced padding), modelling Python's `binascii.Error`. -/
def b64decodeChars : List Char → Option (List Nat)
  | [] => some []
  | c1 :: c2 :: c3 :: c4 :: rest =>
    match charSextet c1, charSextet c2 with
    | some s1, some s2 =>
      if c3 = '=' then
        if c4 = '=' ∧ rest = [] then some [s1 * 4 + s2 / 16] else none
      else
        match charSextet c3 with
        | some s3 =>
          if c4 = '=' then
            if rest = [] then some [s1 * 4 + s2 / 16, s2 % 16 * 16 + s3 / 4]
            else none
          else
            match charSextet c4 with
            | some s4 =>
                (b64decodeChars rest).map
                  (fun bs => (s1 * 4 + s2 / 16) :: (s2 % 16 * 16 + s3 / 4) ::
                             (s3 % 4 * 64 + s4) :: bs)
            | none => none
        | none => none
    | _, _ => none
  | _ => none

/-- The `serialize` function of `task_graph.py`:
`b64encode(pickle.dumps(obj)).decode("utf-8")`, with the pickle layer
abstracted as `dumps`. -/
def serialize {V : Type} (dumps : V → List Nat) (v : V) : List Char :=
  b64encodeBytes (dumps v)

/-- The `deserialize` function of `task_graph.py`:
`pickle.loads(b64decode(text))`, with the pickle layer abstracted as
`loads`; `none` models the raised decoding errors. -/
def deserialize {V : Type} (loads : List Nat → Option V) (text : List Char) :
    Option V :=
  (b64decodeChars text).bind loads

/-- Lookup in an insertion-ordered association list, comparing entries by the
image of their first component under `key` — Python `d[k]`, with `none` for a
`KeyError`.  `key` is the identity for `str`-keyed dicts and `Task.id` for the
identity-keyed `task_deps` dict. -/
def dictFind {κ α β : Type} [DecidableEq κ] (key : α → κ) :
    List (α × β) → κ → Option β
  | [], _ => none
  | p :: rest, k => if key p.1 = k then some p.2 else dictFind key rest k

/-- Python dict assignment `d[k] = v`: when a matching key is present its
value is replaced in place (the stored key object is kept), otherwise the
pair is appended.  Our dicts are built from `[]` by this operation only, so a
key occurs at most once and replacing the first match is exact. -/
def dictInsert {κ α β : Type} [DecidableEq κ] (key : α → κ) :
    List (α × β) → α → β → List (α × β)
  | [], k, v => [(k, v)]
  | p :: rest, k, v =>
      if key p.1 = key k then (p.1, v) :: rest
      else p :: dictInsert key rest k v

/-- The `Task` class (lines 15-21): a name and the wrapped callable.  `id`
models Python object identity (fresh per construction, the implicit dict
key); the callable takes the encoded positional and keyword arguments and
returns the encoded result, `none` modelling a raised error. -/
structure Task where
  id : Nat
  name : String
  call : List (List Char) → List (String × List Char) → Option (List Char)

/-- The `TaskGraph` registry (lines 23-26): the identity-keyed dependency
dict, the name-keyed task dict, and the allocator for fresh object
identities. -/
structure TaskGraph where
  task_deps : List (Task × List Task)
  task_names : List (String × Task)
  nextId : Nat

/-- `TaskGraph.__init__`: both dicts start empty. -/
def TaskGraph.init : TaskGraph := ⟨[], [], 0⟩

/-- The comprehension `[deserialize(arg) for arg in args]` inside the wrapped
callable; the first failing decode propagates (`none`). -/
def decodeAll {V : Type} (loads : List Nat → Option V) :
    List (List Char) → Option (List V)
  | [] => some []
  | a :: rest =>
    match deserialize loads a, decodeAll loads rest with
    | some v, some vs => some (v :: vs)
    | _, _ => none

/-- The keyword-argument comprehension of the wrapped callable: decode every
value, keep the keys. -/
def decodeKw {V : Type} (loads : List Nat → Option V) :
    List (String × List Char) → Option (List (String × V))
  | [] => some []
  | p :: rest =>
    match deserialize loads p.2, decodeKw loads rest with
    | some v, some vs => some ((p.1, v) :: vs)
    | _, _ => none

/-- The adapter `_fun` built by `add_task` (lines 43-49): decode every
positional and keyword argument, run the user function, encode its result. -/
def wrapCall {V : Type} (dumps : V → List Nat) (loads : List Nat → Option V)
    (fn : List V → List (String × V) → V)
    (args : List (List Char)) (kwargs : List (String × List Char)) :
    Option (List Char) :=
  match decodeAll loads args, decodeKw loads kwargs with
  | some vs, some kvs => some (serialize dumps (fn vs kvs))
  | _, _ => none

/-- `TaskGraph.add_task` (lines 42-53): build the codec-wrapped `Task` named
after the function (`fun.__name__` is passed as `funName`), store its
dependency list under the task in `task_deps` and the task under its name in
`task_names`, and return the new handle.  The new task is a fresh object,
hence the `nextId` identity. -/
def TaskGraph.add_task {V : Type} (g : TaskGraph) (dumps : V → List Nat)
    (loads : List Nat → Option V) (funName : String)
    (fn : List V → List (String × V) → V) (deps : List Task) :
    Task × TaskGraph :=
  let task : Task := ⟨g.nextId, funName, wrapCall dumps loads fn⟩
  (task,
   ⟨dictInsert Task.id g.task_deps task deps,
    dictInsert (fun s => s) g.task_names funName task,
    g.nextId + 1⟩)

/-- The decorator-style `TaskGraph.task` (lines 37-40): same registration as
`add_task`, argument order aside. -/
def TaskGraph.task {V : Type} (g : TaskGraph) (dumps : V → List Nat)
    (loads : List Nat → Option V) (deps : List Task) (funName : String)
    (fn : List V → List (String × V) → V) : Task × TaskGraph :=
  g.add_task dumps loads funName fn deps

/-- Error taxonomy of the spec: a failed name (or identity) lookup and a
codec failure during invocation. -/
inductive TGError where
  | UnknownTask : TGError
  | MalformedPayload : TGError
deriving DecidableEq

/-- The lookup `self.task_names[name]`. -/
def TaskGraph.findName (g : TaskGraph) (n : String) : Option Task :=
  dictFind (fun s => s) g.task_names n

/-- The lookup `self.task_deps[task]` — by object identity. -/
def TaskGraph.findDeps (g : TaskGraph) (t : Task) : Option (List Task) :=
  dictFind Task.id g.task_deps t.id

/-- `TaskGraph.execute` (lines 28-29): look the task up by name and invoke
its wrapped callable on the encoded arguments.  A failed lookup is the
`KeyError` of the source, surfaced as `UnknownTask`; a failure inside the
callable (a decode of malformed text) surfaces as `MalformedPayload`. -/
def TaskGraph.execute (g : TaskGraph) (name : String)
    (args : List (List Char)) (kwargs : List (String × List Char)) :
    Except TGError (List Char) :=
  match g.findName name with
  | none => .error .UnknownTask
  | some t =>
    match t.call args kwargs with
    | none => .error .MalformedPayload
    | some r => .ok r

/-- `TaskGraph.dependencies` (lines 31-35): names of the stored dependency
tasks, in stored order.  Both dict lookups can raise `KeyError`; both are
surfaced as `UnknownTask`. -/
def TaskGraph.dependencies (g : TaskGraph) (name : String) :
    Except TGError (List String) :=
  match g.findName name with
  | none => .error .UnknownTask
  | some t =>
    match g.findDeps t with
    | none => .error .UnknownTask
    | some ds => .ok (ds.map Task.name)

/-- The comprehension of `start_tasks` (lines 89-93), unrolled over the
entries of `task_names`: keep the names whose task has an empty stored
dependency list; a failed `task_deps` lookup raises (`none`). -/
def startGo (g : TaskGraph) : List (String × Task) → Option (List String)
  | [] => some []
  | q :: rest =>
    match g.findDeps q.2 with
    | none => none
    | some ds => (startGo g rest).map (fun l => if ds.isEmpty then q.1 :: l else l)

/-- `TaskGraph.start_tasks` (lines 89-93). -/
def TaskGraph.start_tasks (g : TaskGraph) : Option (List String) :=
  startGo g g.task_names

/-- The set comprehension of `end_tasks` (lines 96-99), unrolled over the
entries of `task_names`: collect the stored dependency tasks of every
name-reachable task. -/
def endGo (g : TaskGraph) : List (String × Task) → Option (List Task)
  | [] => some []
  | q :: rest =>
    match g.findDeps q.2 with
    | none => none
    | some ds => (endGo g rest).map (fun l => ds ++ l)

/-- `TaskGraph.end_tasks` (lines 95-100): all registered names minus the
names occurring in some dependency list; the Python `set` value is a
`Finset`. -/
def TaskGraph.end_tasks (g : TaskGraph) : Option (Finset String) :=
  (endGo g g.task_names).map
    (fun dl => (g.task_names.map Prod.fst).toFinset \ (dl.map Task.name).toFinset)

/-- A dict comprehension keyed by task name over the entries of `task_deps`,
with values given by `f` — Python inserts sequentially, so a repeated name
keeps its first position and last value. -/
def dictOfPairs {γ : Type} (f : Task × List Task → γ)
    (L : List (Task × List Task)) : List (String × γ) :=
  L.foldl (fun acc p => dictInsert (fun s => s) acc p.1.name (f p)) []

/-- `TaskGraph.summary` (lines 102-106): the dict comprehension
mapping each task name to its dependency names. -/
def TaskGraph.summary (g : TaskGraph) : List (String × List String) :=
  dictOfPairs (fun p => p.2.map Task.name) g.task_deps

/-- Lookup in the summary dict. -/
def summaryFind (m : List (String × List String)) (n : String) :
    Option (List String) :=
  dictFind (fun s => s) m n

/-- The name-keyed dict obtained by folding the entries of a dependency
dict; the registry keeps `task_names` equal to the fold of its own
`task_deps` (invariant `Inv.names_eq`). -/
def nameIndex (L : List (Task × List Task)) : List (String × Task) :=
  dictOfPairs (fun p => p.1) L

/-- Last entry of a dependency dict whose task carries a given name — the
entry whose value survives in a name-keyed dict comprehension. -/
def lastFind : List (Task × List Task) → String → Option (Task × List Task)
  | [], _ => none
  | p :: rest, n =>
    match lastFind rest n with
    | some q => some q
    | none => if p.1.name = n then some p else none

/-- A name occurring in the stored dependency list of some name-reachable
task (the "source" side of the sink computation in `end_tasks`). -/
def DepName (g : TaskGraph) (n : String) : Prop :=
  ∃ n' t ds d, g.findName n' = some t ∧ g.findDeps t = some ds ∧
    d ∈ ds ∧ d.name = n

/-- Structural invariant of every reachable registry: stored identities are
below the allocator, identities are pairwise distinct, and `task_names` is
exactly the name-keyed fold of `task_deps`. -/
structure TaskGraph.Inv (g : TaskGraph) : Prop where
  ids_lt : ∀ p ∈ g.task_deps, p.1.id < g.nextId
  ids_nodup : (g.task_deps.map (fun p => p.1.id)).Nodup
  names_eq : g.task_names = nameIndex g.task_deps

/-- Registry states reachable from `__init__` by `add_task` calls (the only
mutating operation of the class). -/
inductive TaskGraph.Reachable : TaskGraph → Prop where
  | init : TaskGraph.Reachable TaskGraph.init
  | step {g : TaskGraph} {V : Type} (dumps : V → List Nat)
      (loads : List Nat → Option V) (funName : String)
      (fn : List V → List (String × V) → V) (deps : List Task) :
      TaskGraph.Reachable g →
      TaskGraph.Reachable (g.add_task dumps loads funName fn deps).2

/-- Concrete one-byte pickle model for witnesses: values below 256. -/
def natDumps (n : Nat) : List Nat := [n % 256]

/-- Inverse of `natDumps` on single bytes. -/
def natLoads : List Nat → Option Nat
  | [b] => some b
  | _ => none

/-- A concrete user function ignoring its arguments. -/
def fnConst : List Nat → List (String × Nat) → Nat := fun _ _ => 0

/-- A concrete user function adding all positional and keyword values. -/
def fnAdd : List Nat → List (String × Nat) → Nat :=
  fun vs kws => vs.sum + (kws.map Prod.snd).sum

/-- Registration of a task "a" with no dependencies on the empty registry. -/
def addA : Task × TaskGraph :=
  TaskGraph.init.add_task natDumps natLoads "a" fnConst []

/-- The registry holding only "a". -/
def Ga : TaskGraph := addA.2

/-- The handle returned for "a". -/
def tA : Task := addA.1

/-- Registration of "b" depending on "a". -/
def addB : Task × TaskGraph := Ga.add_task natDumps natLoads "b" fnConst [tA]

/-- The registry holding "a" and "b" with the edge a -> b. -/
def Gab : TaskGraph := addB.2

/-- Re-registration of the name "a", leaving the first "a" as a ghost key
of `task_deps`. -/
def addA2 : Task × TaskGraph := Ga.add_task natDumps natLoads "a" fnConst []

/-- The registry after re-registering "a". -/
def Gghost : TaskGraph := addA2.2

/-- Registration of an "add" task for the execution witness. -/
def addSum : Task × TaskGraph :=
  TaskGraph.init.add_task natDumps natLoads "add" fnAdd []

/-- The registry holding only "add". -/
def Gadd : TaskGraph := addSum.2

theorem charSextet_sextetChar {s : Nat} (h : s < 64) :
    charSextet (sextetChar s) = some s := by
  have key : ∀ t : Fin 64, charSextet (sextetChar t.val) = some t.val := by decide
  exact key ⟨s, h⟩

theorem sextetChar_ne_pad {s : Nat} (h : s < 64) : sextetChar s ≠ '=' := by
  have key : ∀ t : Fin 64, sextetChar t.val ≠ '=' := by decide
  exact key ⟨s, h⟩

/-- Decoding inverts encoding on every byte list (the base64 layer of the
round-trip guarantee of the payload codec). -/
theorem b64_roundtrip : ∀ bs : List Nat, (∀ x ∈ bs, x < 256) →
    b64decodeChars (b64encodeBytes bs) = some bs
  | [], _ => rfl
  | [a], h => by
      have ha : a < 256 := h a (by simp)
      have h1 := charSextet_sextetChar (s := a / 4) (by omega)
      have h2 := charSextet_sextetChar (s := a % 4 * 16) (by omega)
      simp only [b64encodeBytes, b64decodeChars, h1, h2, and_self, if_true,
        Option.some.injEq, List.cons.injEq, and_true]
      omega
  | [a, b], h => by
      have ha : a < 256 := h a (by simp)
      have hb : b < 256 := h b (by simp)
      have h1 := charSextet_sextetChar (s := a / 4) (by omega)
      have h2 := charSextet_sextetChar (s := a % 4 * 16 + b / 16) (by omega)
      have h3 := charSextet_sextetChar (s := b % 16 * 4) (by omega)
      have hp3 := sextetChar_ne_pad (s := b % 16 * 4) (by omega)
      simp only [b64encodeBytes, b64decodeChars, h1, h2, h3, if_neg hp3,
        and_self, if_true, Option.some.injEq, List.cons.injEq, and_true]
      omega
  | [a, b, c], h => by
      have ha : a < 256 := h a (by simp)
      have hb : b < 256 := h b (by simp)
      have hc : c < 256 := h c (by simp)
      have h1 := charSextet_sextetChar (s := a / 4) (by omega)
      have h2 := charSextet_sextetChar (s := a % 4 * 16 + b / 16) (by omega)
      have h3 := charSextet_sextetChar (s := b % 16 * 4 + c / 64) (by omega)
      have h4 := charSextet_sextetChar (s := c % 64) (by omega)
      have hp3 := sextetChar_ne_pad (s := b % 16 * 4 + c / 64) (by omega)
      have hp4 := sextetChar_ne_pad (s := c % 64) (by omega)
      simp only [b64encodeBytes, b64decodeChars, h1, h2, h3, h4, if_neg hp3,
        if_neg hp4, Option.map_some', Option.some.injEq, List.cons.injEq,
        and_true]
      omega
  | a :: b :: c :: d :: rest, h => by
      have ha : a < 256 := h a (by simp)
      have hb : b < 256 := h b (by simp)
      have hc : c < 256 := h c (by simp)
      have ih := b64_roundtrip (d :: rest) (fun x hx => h x (by simp at hx ⊢; tauto))
      have h1 := charSextet_sextetChar (s := a / 4) (by omega)
      have h2 := charSextet_sextetChar (s := a % 4 * 16 + b / 16) (by omega)
      have h3 := charSextet_sextetChar (s := b % 16 * 4 + c / 64) (by omega)
      have h4 := charSextet_sextetChar (s := c % 64) (by omega)
      have hp3 := sextetChar_ne_pad (s := b % 16 * 4 + c / 64) (by omega)
      have hp4 := sextetChar_ne_pad (s := c % 64) (by omega)
      simp only [b64encodeBytes, b64decodeChars, h1, h2, h3, h4, if_neg hp3,
        if_neg hp4, ih, Option.map_some', Option.some.injEq, List.cons.injEq,
        and_true]
      omega

/-- Round trip of the full codec: whenever the abstract pickle layer round
trips on a value and its bytes are bytes, the codec of the source does too. -/
theorem deserialize_serialize_of {V : Type} (dumps : V → List Nat)
    (loads : List Nat → Option V) (v : V)
    (hbytes : ∀ x ∈ dumps v, x < 256) (hround : loads (dumps v) = some v) :
    deserialize loads (serialize dumps v) = some v := by
  unfold deserialize serialize
  rw [b64_roundtrip _ hbytes]
  simpa using hround

section DictLemmas

variable {κ α β : Type} [DecidableEq κ] (key : α → κ)

theorem dictFind_insert_self :
    ∀ (m : List (α × β)) (k : α) (v : β),
      dictFind key (dictInsert key m k v) (key k) = some v
  | [], k, v => by simp [dictInsert, dictFind]
  | p :: rest, k, v => by
      by_cases h : key p.1 = key k
      · simp [dictInsert, dictFind, h]
      · simp only [dictInsert, if_neg h, dictFind, if_neg h]
        exact dictFind_insert_self rest k v

theorem dictFind_insert_ne :
    ∀ (m : List (α × β)) (k : α) (v : β) (c : κ), c ≠ key k →
      dictFind key (dictInsert key m k v) c = dictFind key m c
  | [], k, v, c, hc => by
      simp only [dictInsert, dictFind]
      rw [if_neg (fun h => hc h.symm)]
  | p :: rest, k, v, c, hc => by
      by_cases h : key p.1 = key k
      · have hp : key p.1 ≠ c := fun hpc => hc (hpc ▸ h)
        simp only [dictInsert, if_pos h, dictFind, if_neg hp]
      · simp only [dictInsert, if_neg h, dictFind]
        by_cases hp : key p.1 = c
        · simp [hp]
        · rw [if_neg hp, if_neg hp, dictFind_insert_ne rest k v c hc]

theorem dictInsert_append :
    ∀ (m : List (α × β)) (k : α) (v : β), (∀ p ∈ m, key p.1 ≠ key k) →
      dictInsert key m k v = m ++ [(k, v)]
  | [], k, v, _ => rfl
  | p :: rest, k, v, h => by
      simp only [dictInsert, if_neg (h p (by simp)), List.cons_append,
        List.cons.injEq, true_and]
      exact dictInsert_append rest k v (fun q hq => h q (by simp [hq]))

theorem dictFind_append_right :
    ∀ (m l : List (α × β)) (c : κ), (∀ p ∈ m, key p.1 ≠ c) →
      dictFind key (m ++ l) c = dictFind key l c
  | [], l, c, _ => rfl
  | p :: rest, l, c, h => by
      simp only [List.cons_append, dictFind, if_neg (h p (by simp))]
      exact dictFind_append_right rest l c (fun q hq => h q (by simp [hq]))

theorem mem_of_dictFind :
    ∀ (m : List (α × β)) (c : κ) (b : β), dictFind key m c = some b →
      ∃ a, (a, b) ∈ m ∧ key a = c
  | [], c, b, h => by simp [dictFind] at h
  | p :: rest, c, b, h => by
      by_cases hp : key p.1 = c
      · rw [dictFind, if_pos hp] at h
        have hb : p.2 = b := by injection h
        exact ⟨p.1, by rw [← hb]; simp, hp⟩
      · rw [dictFind, if_neg hp] at h
        obtain ⟨a, ham, hak⟩ := mem_of_dictFind rest c b h
        exact ⟨a, by simp [ham], hak⟩

theorem dictFind_of_mem :
    ∀ (m : List (α × β)) (a : α) (b : β), (a, b) ∈ m →
      (m.map (fun p => key p.1)).Nodup → dictFind key m (key a) = some b
  | p :: rest, a, b, hmem, hnd => by
      rw [List.mem_cons] at hmem
      rcases hmem with heq | hmem
      · rw [dictFind, ← heq]
        simp
      · have hka : key a ∈ rest.map (fun p => key p.1) :=
          List.mem_map.mpr ⟨(a, b), hmem, rfl⟩
        simp only [List.map_cons, List.nodup_cons] at hnd
        have hne : key p.1 ≠ key a := fun h => hnd.1 (h ▸ hka)
        rw [dictFind, if_neg hne]
        exact dictFind_of_mem rest a b hmem hnd.2

theorem mem_keys_dictInsert :
    ∀ (m : List (α × β)) (k : α) (v : β) (c : κ),
      c ∈ (dictInsert key m k v).map (fun p => key p.1) →
      c ∈ m.map (fun p => key p.1) ∨ c = key k
  | [], k, v, c, h => by
      simp only [dictInsert, List.map_cons, List.map_nil, List.mem_singleton] at h
      simp [h]
  | p :: rest, k, v, c, h => by
      by_cases hk : key p.1 = key k
      · simp only [dictInsert, if_pos hk, List.map_cons, List.mem_cons] at h ⊢
        tauto
      · simp only [dictInsert, if_neg hk, List.map_cons, List.mem_cons] at h ⊢
        rcases h with h | h
        · tauto
        · rcases mem_keys_dictInsert rest k v c h with h' | h' <;> tauto

theorem dictInsert_keys_nodup :
    ∀ (m : List (α × β)) (k : α) (v : β),
      (m.map (fun p => key p.1)).Nodup →
      ((dictInsert key m k v).map (fun p => key p.1)).Nodup
  | [], k, v, _ => by simp [dictInsert]
  | p :: rest, k, v, hnd => by
      by_cases h : key p.1 = key k
      · simpa [dictInsert, h] using hnd
      · simp only [List.map_cons, List.nodup_cons] at hnd
        simp only [dictInsert, if_neg h, List.map_cons, List.nodup_cons]
        refine ⟨fun hin => ?_, dictInsert_keys_nodup rest k v hnd.2⟩
        rcases mem_keys_dictInsert key rest k v (key p.1) hin with h' | h'
        · exact hnd.1 h'
        · exact h h'

end DictLemmas

theorem lastFind_append (L : List (Task × List Task)) (q : Task × List Task)
    (n : String) :
    lastFind (L ++ [q]) n = if q.1.name = n then some q else lastFind L n := by
  induction L with
  | nil =>
      by_cases hq : q.1.name = n <;> simp [lastFind, hq]
  | cons p rest ih =>
      have hshape : (p :: rest) ++ [q] = p :: (rest ++ [q]) := rfl
      rw [hshape, lastFind, ih]
      by_cases hq : q.1.name = n
      · simp only [if_pos hq]
      · simp only [if_neg hq]
        conv_rhs => rw [lastFind]

theorem lastFind_mem :
    ∀ (L : List (Task × List Task)) (n : String) (p : Task × List Task),
      lastFind L n = some p → p ∈ L ∧ p.1.name = n
  | [], n, p, h => by simp [lastFind] at h
  | q :: rest, n, p, h => by
      rw [lastFind] at h
      cases hr : lastFind rest n with
      | some r =>
          rw [hr] at h
          have hrp : r = p := by injection h
          obtain ⟨hm, hn⟩ := lastFind_mem rest n p (hrp ▸ hr)
          exact ⟨by simp [hm], hn⟩
      | none =>
          rw [hr] at h
          by_cases hq : q.1.name = n
          · rw [if_pos hq] at h
            have : q = p := by injection h
            exact ⟨by simp [this.symm], this ▸ hq⟩
          · rw [if_neg hq] at h
            cases h

theorem dictOfPairs_append {γ : Type} (f : Task × List Task → γ)
    (L : List (Task × List Task)) (q : Task × List Task) :
    dictOfPairs f (L ++ [q]) =
      dictInsert (fun s => s) (dictOfPairs f L) q.1.name (f q) := by
  simp [dictOfPairs, List.foldl_append]

theorem dictOfPairs_find {γ : Type} (f : Task × List Task → γ)
    (L : List (Task × List Task)) (n : String) :
    dictFind (fun s => s) (dictOfPairs f L) n = (lastFind L n).map f := by
  induction L using List.reverseRecOn with
  | nil => rfl
  | append_singleton L q ih =>
      rw [dictOfPairs_append, lastFind_append]
      by_cases hq : q.1.name = n
      · rw [if_pos hq, ← hq, Option.map_some']
        exact dictFind_insert_self (fun s : String => s)
          (dictOfPairs f L) q.1.name (f q)
      · rw [if_neg hq,
          dictFind_insert_ne (fun s : String => s) (dictOfPairs f L) q.1.name
            (f q) n (fun h => hq h.symm), ih]

theorem dictOfPairs_keys_nodup {γ : Type} (f : Task × List Task → γ)
    (L : List (Task × List Task)) :
    ((dictOfPairs f L).map (fun p => p.1)).Nodup := by
  induction L using List.reverseRecOn with
  | nil => simp [dictOfPairs]
  | append_singleton L q ih =>
      rw [dictOfPairs_append]
      exact dictInsert_keys_nodup (fun s : String => s)
        (dictOfPairs f L) q.1.name (f q) ih

theorem add_task_fst {V : Type} (g : TaskGraph) (dumps : V → List Nat)
    (loads : List Nat → Option V) (funName : String)
    (fn : List V → List (String × V) → V) (deps : List Task) :
    (g.add_task dumps loads funName fn deps).1 =
      ⟨g.nextId, funName, wrapCall dumps loads fn⟩ := rfl

theorem add_task_names_eq {V : Type} (g : TaskGraph) (dumps : V → List Nat)
    (loads : List Nat → Option V) (funName : String)
    (fn : List V → List (String × V) → V) (deps : List Task) :
    (g.add_task dumps loads funName fn deps).2.task_names =
      dictInsert (fun s => s) g.task_names funName
        (g.add_task dumps loads funName fn deps).1 := rfl

theorem add_task_nextId {V : Type} (g : TaskGraph) (dumps : V → List Nat)
    (loads : List Nat → Option V) (funName : String)
    (fn : List V → List (String × V) → V) (deps : List Task) :
    (g.add_task dumps loads funName fn deps).2.nextId = g.nextId + 1 := rfl

/-- On a registry whose stored identities are below the allocator, the fresh
task of `add_task` collides with no existing key, so the dict assignment
appends. -/
theorem add_task_deps_eq {V : Type} (g : TaskGraph) (dumps : V → List Nat)
    (loads : List Nat → Option V) (funName : String)
    (fn : List V → List (String × V) → V) (deps : List Task) (hinv : g.Inv) :
    (g.add_task dumps loads funName fn deps).2.task_deps =
      g.task_deps ++ [((g.add_task dumps loads funName fn deps).1, deps)] := by
  show dictInsert Task.id g.task_deps _ deps = _
  exact dictInsert_append Task.id g.task_deps _ deps
    (fun p hp => by
      have := hinv.ids_lt p hp
      show p.1.id ≠ g.nextId
      omega)

theorem inv_init : TaskGraph.init.Inv := by
  refine ⟨?_, ?_, ?_⟩
  · intro p hp; cases hp
  · exact List.nodup_nil
  · rfl

theorem inv_step {V : Type} (g : TaskGraph) (dumps : V → List Nat)
    (loads : List Nat → Option V) (funName : String)
    (fn : List V → List (String × V) → V) (deps : List Task) (hinv : g.Inv) :
    ((g.add_task dumps loads funName fn deps).2).Inv := by
  refine ⟨?_, ?_, ?_⟩
  · intro p hp
    rw [add_task_deps_eq g dumps loads funName fn deps hinv] at hp
    rw [add_task_nextId]
    rcases List.mem_append.mp hp with h | h
    · exact Nat.lt_succ_of_lt (hinv.ids_lt p h)
    · simp only [List.mem_singleton] at h
      rw [h, add_task_fst]
      exact Nat.lt_succ_self _
  · rw [add_task_deps_eq g dumps loads funName fn deps hinv]
    simp only [List.map_append, List.map_cons, List.map_nil]
    rw [List.nodup_append]
    refine ⟨hinv.ids_nodup, List.nodup_singleton _, ?_⟩
    intro a ha hb
    simp only [List.mem_singleton] at hb
    have hb' : a = g.nextId := by rw [hb, add_task_fst]
    obtain ⟨p, hp, hpa⟩ := List.mem_map.mp ha
    have hlt := hinv.ids_lt p hp
    omega
  · rw [add_task_names_eq, add_task_deps_eq g dumps loads funName fn deps hinv,
      hinv.names_eq]
    simp only [nameIndex]
    rw [dictOfPairs_append]
    rfl

/-- Every reachable registry satisfies the structural invariant. -/
theorem inv_of_reachable {g : TaskGraph} (h : g.Reachable) : g.Inv := by
  induction h with
  | init => exact inv_init
  | step dumps loads funName fn deps _ ih =>
      exact inv_step _ dumps loads funName fn deps ih

/-- On an invariant-satisfying registry, name lookup agrees with membership
in `task_names`. -/
theorem findName_iff_mem {g : TaskGraph} (hinv : g.Inv) (n : String)
    (t : Task) : g.findName n = some t ↔ (n, t) ∈ g.task_names := by
  constructor
  · intro h
    obtain ⟨a, ham, hak⟩ := mem_of_dictFind (fun s => s) g.task_names n t h
    rwa [show a = n from hak] at ham
  · intro h
    have hnd : (g.task_names.map (fun p => p.1)).Nodup := by
      rw [hinv.names_eq, nameIndex]
      exact dictOfPairs_keys_nodup _ _
    exact dictFind_of_mem (fun s => s) g.task_names n t h hnd

/-- Every entry of `task_names` is keyed by its task's name, and that task
is a key of `task_deps` whose dependency list the identity lookup returns. -/
theorem names_entry {g : TaskGraph} (hinv : g.Inv) (q : String × Task)
    (hq : q ∈ g.task_names) :
    q.2.name = q.1 ∧ ∃ ds, (q.2, ds) ∈ g.task_deps ∧ g.findDeps q.2 = some ds := by
  have hfind : g.findName q.1 = some q.2 :=
    (findName_iff_mem hinv q.1 q.2).mpr (by cases q; exact hq)
  have h1 : dictFind (fun s => s) (nameIndex g.task_deps) q.1 = some q.2 := by
    rw [← hinv.names_eq]; exact hfind
  rw [nameIndex, dictOfPairs_find] at h1
  cases hlf : lastFind g.task_deps q.1 with
  | none => rw [hlf] at h1; cases h1
  | some p =>
      rw [hlf, Option.map_some'] at h1
      have hp1 : p.1 = q.2 := by injection h1
      obtain ⟨hmem, hname⟩ := lastFind_mem g.task_deps q.1 p hlf
      refine ⟨by rw [← hp1, hname], p.2, by rw [← hp1]; exact (by cases p; exact hmem), ?_⟩
      show dictFind Task.id g.task_deps q.2.id = some p.2
      have := dictFind_of_mem Task.id g.task_deps p.1 p.2
        (by cases p; exact hmem) hinv.ids_nodup
      rwa [hp1] at this

theorem decodeAll_map {V : Type} (dumps : V → List Nat)
    (loads : List Nat → Option V) :
    ∀ vs : List V, (∀ v ∈ vs, deserialize loads (serialize dumps v) = some v) →
      decodeAll loads (vs.map (serialize dumps)) = some vs
  | [], _ => rfl
  | v :: rest, h => by
      have hv := h v (by simp)
      have hrest := decodeAll_map dumps loads rest (fun w hw => h w (by simp [hw]))
      simp only [List.map_cons, decodeAll, hv, hrest]

theorem decodeKw_map {V : Type} (dumps : V → List Nat)
    (loads : List Nat → Option V) :
    ∀ kws : List (String × V),
      (∀ p ∈ kws, deserialize loads (serialize dumps p.2) = some p.2) →
      decodeKw loads (kws.map (fun p => (p.1, serialize dumps p.2))) = some kws
  | [], _ => rfl
  | p :: rest, h => by
      have hv := h p (by simp)
      have hrest := decodeKw_map dumps loads rest (fun q hq => h q (by simp [hq]))
      simp only [List.map_cons, decodeKw, hv, hrest]

/-- The adapter applied to encoded arguments produces the encoding of the
user function's direct result. -/
theorem wrapCall_encoded {V : Type} (dumps : V → List Nat)
    (loads : List Nat → Option V) (fn : List V → List (String × V) → V)
    (vs : List V) (kws : List (String × V))
    (hargs : ∀ v ∈ vs, deserialize loads (serialize dumps v) = some v)
    (hkws : ∀ p ∈ kws, deserialize loads (serialize dumps p.2) = some p.2) :
    wrapCall dumps loads fn (vs.map (serialize dumps))
      (kws.map (fun p => (p.1, serialize dumps p.2))) =
      some (serialize dumps (fn vs kws)) := by
  unfold wrapCall
  rw [decodeAll_map dumps loads vs hargs, decodeKw_map dumps loads kws hkws]

theorem startGo_char (g : TaskGraph) :
    ∀ L : List (String × Task), (∀ q ∈ L, ∃ ds, g.findDeps q.2 = some ds) →
      ∃ l, startGo g L = some l ∧
        ∀ n, n ∈ l ↔ ∃ t, (n, t) ∈ L ∧ g.findDeps t = some []
  | [], _ => ⟨[], rfl, by simp⟩
  | (qn, qt) :: rest, h => by
      obtain ⟨ds, hds⟩ := h (qn, qt) (by simp)
      obtain ⟨l, hl, hmem⟩ := startGo_char g rest (fun r hr => h r (by simp [hr]))
      refine ⟨if ds.isEmpty then qn :: l else l, ?_, ?_⟩
      · rw [startGo, hds, hl]
        rfl
      · intro n
        by_cases hemp : ds.isEmpty
        · have hdse : ds = [] := List.isEmpty_iff.mp hemp
          subst hdse
          simp only [if_pos hemp, List.mem_cons, hmem]
          constructor
          · rintro (hn | ⟨t, htL, ht⟩)
            · exact ⟨qt, Or.inl (by rw [hn]), hds⟩
            · exact ⟨t, Or.inr htL, ht⟩
          · rintro ⟨t, htL | htL, ht⟩
            · left
              exact congrArg Prod.fst htL
            · right
              exact ⟨t, htL, ht⟩
        · have hdse : ds ≠ [] := fun hh => hemp (by simp [hh])
          simp only [if_neg hemp, hmem, List.mem_cons]
          constructor
          · rintro ⟨t, htL, ht⟩
            exact ⟨t, Or.inr htL, ht⟩
          · rintro ⟨t, htL | htL, ht⟩
            · exfalso
              have hq2 : t = qt := congrArg Prod.snd htL
              rw [hq2, hds] at ht
              have hnil : ds = [] := by injection ht
              exact hdse hnil
            · exact ⟨t, htL, ht⟩

theorem endGo_char (g : TaskGraph) :
    ∀ L : List (String × Task), (∀ q ∈ L, ∃ ds, g.findDeps q.2 = some ds) →
      ∃ dl, endGo g L = some dl ∧
        ∀ d, d ∈ dl ↔ ∃ n t ds, (n, t) ∈ L ∧ g.findDeps t = some ds ∧ d ∈ ds
  | [], _ => ⟨[], rfl, by simp⟩
  | (qn, qt) :: rest, h => by
      obtain ⟨ds, hds⟩ := h (qn, qt) (by simp)
      obtain ⟨dl, hdl, hmem⟩ := endGo_char g rest (fun r hr => h r (by simp [hr]))
      refine ⟨ds ++ dl, ?_, ?_⟩
      · rw [endGo, hds, hdl]
        rfl
      · intro d
        simp only [List.mem_append, hmem, List.mem_cons]
        constructor
        · rintro (hd | ⟨n, t, ds', htL, ht, hd⟩)
          · exact ⟨qn, qt, ds, Or.inl rfl, hds, hd⟩
          · exact ⟨n, t, ds', Or.inr htL, ht, hd⟩
        · rintro ⟨n, t, ds', htL | htL, ht, hd⟩
          · left
            have ht2 : t = qt := congrArg Prod.snd htL
            rw [ht2, hds] at ht
            have hds' : ds = ds' := by injection ht
            rwa [hds']
          · right
            exact ⟨n, t, ds', htL, ht, hd⟩

theorem dictFind_append_ne {κ α β : Type} [DecidableEq κ] (key : α → κ) :
    ∀ (m : List (α × β)) (k : α) (v : β) (c : κ), c ≠ key k →
      dictFind key (m ++ [(k, v)]) c = dictFind key m c
  | [], k, v, c, hc => by
      simp only [List.nil_append, dictFind]
      rw [if_neg (fun h => hc h.symm)]
  | p :: rest, k, v, c, hc => by
      by_cases hp : key p.1 = c
      · simp only [List.cons_append, dictFind, if_pos hp]
      · simp only [List.cons_append, dictFind, if_neg hp]
        exact dictFind_append_ne key rest k v c hc

theorem nodup_key_entries {κ α β : Type} [DecidableEq κ] (key : α → κ) :
    ∀ (m : List (α × β)), (m.map (fun p => key p.1)).Nodup →
      ∀ p q : α × β, p ∈ m → q ∈ m → key p.1 = key q.1 → p = q
  | [], _, p, q, hp, _, _ => by cases hp
  | r :: rest, hnd, p, q, hp, hq, hk => by
      simp only [List.map_cons, List.nodup_cons] at hnd
      rcases List.mem_cons.mp hp with hp' | hp' <;>
        rcases List.mem_cons.mp hq with hq' | hq'
      · rw [hp', hq']
      · exfalso
        apply hnd.1
        refine List.mem_map.mpr ⟨q, hq', ?_⟩
        rw [← hk, hp']
      · exfalso
        apply hnd.1
        refine List.mem_map.mpr ⟨p, hp', ?_⟩
        rw [hk, hq']
      · exact nodup_key_entries key rest hnd.2 p q hp' hq' hk

/-- Characterization of `start_tasks` on an invariant-satisfying registry:
defined, and holding exactly the registered names whose task has an empty
stored dependency list. -/
theorem start_tasks_char (g : TaskGraph) (hinv : g.Inv) :
    ∃ l, g.start_tasks = some l ∧
      ∀ n, n ∈ l ↔ ∃ t, g.findName n = some t ∧ g.findDeps t = some [] := by
  obtain ⟨l, hl, hmem⟩ := startGo_char g g.task_names (fun q hq => by
    obtain ⟨-, ds, -, hds⟩ := names_entry hinv q hq
    exact ⟨ds, hds⟩)
  refine ⟨l, hl, fun n => (hmem n).trans ?_⟩
  constructor
  · rintro ⟨t, htm, ht⟩
    exact ⟨t, (findName_iff_mem hinv n t).mpr htm, ht⟩
  · rintro ⟨t, hf, ht⟩
    exact ⟨t, (findName_iff_mem hinv n t).mp hf, ht⟩

/-- Characterization of `end_tasks` on an invariant-satisfying registry:
defined, and holding exactly the registered names that occur in no
registered task's dependency list. -/
theorem end_tasks_char (g : TaskGraph) (hinv : g.Inv) :
    ∃ s, g.end_tasks = some s ∧
      ∀ n, n ∈ s ↔ (∃ t, g.findName n = some t) ∧ ¬ DepName g n := by
  obtain ⟨dl, hdl, hmem⟩ := endGo_char g g.task_names (fun q hq => by
    obtain ⟨-, ds, -, hds⟩ := names_entry hinv q hq
    exact ⟨ds, hds⟩)
  refine ⟨(g.task_names.map Prod.fst).toFinset \ (dl.map Task.name).toFinset,
    ?_, ?_⟩
  · rw [TaskGraph.end_tasks, hdl]
    rfl
  · intro n
    rw [Finset.mem_sdiff, List.mem_toFinset, List.mem_toFinset]
    constructor
    · rintro ⟨hin, hnotin⟩
      obtain ⟨q, hq, hq1⟩ := List.mem_map.mp hin
      refine ⟨⟨q.2, (findName_iff_mem hinv n q.2).mpr ?_⟩, ?_⟩
      · rw [← hq1]
        cases q
        exact hq
      · rintro ⟨n', t, ds, d, hf, hfd, hd, hdn⟩
        apply hnotin
        refine List.mem_map.mpr ⟨d, ?_, hdn⟩
        exact (hmem d).mpr ⟨n', t, ds, (findName_iff_mem hinv n' t).mp hf, hfd, hd⟩
    · rintro ⟨⟨t, hf⟩, hnd⟩
      have htm := (findName_iff_mem hinv n t).mp hf
      refine ⟨List.mem_map.mpr ⟨(n, t), htm, rfl⟩, fun hin => ?_⟩
      obtain ⟨d, hd, hdn⟩ := List.mem_map.mp hin
      obtain ⟨n', t', ds, hnt, hfd, hdds⟩ := (hmem d).mp hd
      exact hnd ⟨n', t', ds, d, (findName_iff_mem hinv n' t').mpr hnt, hfd, hdds, hdn⟩

/-- After a registration the new name resolves to the new task, whose stored
dependency list is exactly the declared one. -/
theorem dependencies_after_add {V : Type} (g : TaskGraph) (hinv : g.Inv)
    (dumps : V → List Nat) (loads : List Nat → Option V) (funName : String)
    (fn : List V → List (String × V) → V) (deps : List Task) :
    ((g.add_task dumps loads funName fn deps).2).findName funName =
      some (g.add_task dumps loads funName fn deps).1 ∧
    ((g.add_task dumps loads funName fn deps).2).findDeps
      (g.add_task dumps loads funName fn deps).1 = some deps ∧
    ((g.add_task dumps loads funName fn deps).2).dependencies funName =
      .ok (deps.map Task.name) := by
  have h1 : ((g.add_task dumps loads funName fn deps).2).findName funName =
      some (g.add_task dumps loads funName fn deps).1 := by
    show dictFind (fun s => s) _ funName = _
    rw [add_task_names_eq]
    exact dictFind_insert_self (fun s : String => s) g.task_names funName _
  have h2 : ((g.add_task dumps loads funName fn deps).2).findDeps
      (g.add_task dumps loads funName fn deps).1 = some deps := by
    have hne : ∀ p ∈ g.task_deps,
        Task.id p.1 ≠ (g.add_task dumps loads funName fn deps).1.id := by
      intro p hp
      have hlt := hinv.ids_lt p hp
      rw [add_task_fst]
      show p.1.id ≠ g.nextId
      omega
    show dictFind Task.id _ _ = _
    rw [add_task_deps_eq g dumps loads funName fn deps hinv,
      dictFind_append_right Task.id g.task_deps _ _ hne, dictFind, if_pos rfl]
  refine ⟨h1, h2, ?_⟩
  simp only [TaskGraph.dependencies, h1, h2]

/-- C1: for every value in the supported domain of the underlying
value-serialization mechanism (its bytes are bytes and the pickle layer
round trips on it), deserializing the serialization returns the value. -/
theorem roundtrip_deserialize_serialize {V : Type} (dumps : V → List Nat)
    (loads : List Nat → Option V) (v : V)
    (hbytes : ∀ x ∈ dumps v, x < 256) (hround : loads (dumps v) = some v) :
    deserialize loads (serialize dumps v) = some v :=
  deserialize_serialize_of dumps loads v hbytes hround

theorem roundtrip_deserialize_serialize_witness :
    deserialize natLoads (serialize natDumps 5) = some 5 :=
  roundtrip_deserialize_serialize natDumps natLoads 5 (by decide) (by decide)

/-- C2: executing a registered task that wraps `fn` on encoded positional
and keyword arguments decodes them, calls `fn`, and returns an encoding
whose decoded value is `fn`'s direct result on the decoded arguments. -/
theorem execute_returns_encoded_result {V : Type} (g : TaskGraph)
    (dumps : V → List Nat) (loads : List Nat → Option V) (n : String)
    (t : Task) (fn : List V → List (String × V) → V)
    (vs : List V) (kws : List (String × V))
    (hfind : g.findName n = some t)
    (hcall : t.call = wrapCall dumps loads fn)
    (hargs : ∀ v ∈ vs, (∀ x ∈ dumps v, x < 256) ∧ loads (dumps v) = some v)
    (hkws : ∀ p ∈ kws, (∀ x ∈ dumps p.2, x < 256) ∧
      loads (dumps p.2) = some p.2)
    (hres : (∀ x ∈ dumps (fn vs kws), x < 256) ∧
      loads (dumps (fn vs kws)) = some (fn vs kws)) :
    g.execute n (vs.map (serialize dumps))
        (kws.map (fun p => (p.1, serialize dumps p.2))) =
      .ok (serialize dumps (fn vs kws)) ∧
    deserialize loads (serialize dumps (fn vs kws)) = some (fn vs kws) := by
  have hw := wrapCall_encoded dumps loads fn vs kws
    (fun v hv => deserialize_serialize_of dumps loads v (hargs v hv).1
      (hargs v hv).2)
    (fun p hp => deserialize_serialize_of dumps loads p.2 (hkws p hp).1
      (hkws p hp).2)
  constructor
  · simp only [TaskGraph.execute, hfind, hcall, hw]
  · exact deserialize_serialize_of dumps loads _ hres.1 hres.2

theorem execute_returns_encoded_result_witness :
    Gadd.execute "add" ([2, 3].map (serialize natDumps))
        ([("k", 4)].map (fun p => (p.1, serialize natDumps p.2))) =
      .ok (serialize natDumps (fnAdd [2, 3] [("k", 4)])) ∧
    deserialize natLoads (serialize natDumps (fnAdd [2, 3] [("k", 4)])) =
      some (fnAdd [2, 3] [("k", 4)]) :=
  execute_returns_encoded_result Gadd natDumps natLoads "add" addSum.1 fnAdd
    [2, 3] [("k", 4)] rfl rfl (by decide) (by decide) (by decide)

/-- C3: a name absent from the name map makes both `execute` and
`dependencies` fail with `UnknownTask`. -/
theorem unknown_name_errors (g : TaskGraph) (name : String)
    (args : List (List Char)) (kwargs : List (String × List Char))
    (h : g.findName name = none) :
    g.execute name args kwargs = .error .UnknownTask ∧
    g.dependencies name = .error .UnknownTask := by
  constructor
  · simp only [TaskGraph.execute, h]
  · simp only [TaskGraph.dependencies, h]

theorem unknown_name_errors_witness :
    TaskGraph.init.execute "missing" [] [] = .error .UnknownTask ∧
    TaskGraph.init.dependencies "missing" = .error .UnknownTask :=
  unknown_name_errors TaskGraph.init "missing" [] [] rfl

/-- C4: after `add_task fn deps`, `dependencies fn.name` is the list of the
declared dependencies' names in the order passed, and the returned handle is
accepted as a dependency of a further `add_task`, which then lists its
name. -/
theorem add_task_dependencies {V W : Type} (g : TaskGraph) (hg : g.Reachable)
    (dumps : V → List Nat) (loads : List Nat → Option V) (funName : String)
    (fn : List V → List (String × V) → V) (deps : List Task)
    (dumps2 : W → List Nat) (loads2 : List Nat → Option W) (funName2 : String)
    (fn2 : List W → List (String × W) → W) :
    ((g.add_task dumps loads funName fn deps).2).dependencies funName =
      .ok (deps.map Task.name) ∧
    ((((g.add_task dumps loads funName fn deps).2).add_task dumps2 loads2
        funName2 fn2 [(g.add_task dumps loads funName fn deps).1]).2).dependencies
        funName2 = .ok [funName] := by
  have hinv := inv_of_reachable hg
  obtain ⟨-, -, h3⟩ := dependencies_after_add g hinv dumps loads funName fn deps
  have hinv2 := inv_step g dumps loads funName fn deps hinv
  obtain ⟨-, -, h4⟩ := dependencies_after_add _ hinv2 dumps2 loads2 funName2 fn2
    [(g.add_task dumps loads funName fn deps).1]
  refine ⟨h3, ?_⟩
  rw [h4]
  rfl

theorem add_task_dependencies_witness :
    Ga.dependencies "a" = .ok (([] : List Task).map Task.name) ∧
    Gab.dependencies "b" = .ok ["a"] :=
  add_task_dependencies TaskGraph.init TaskGraph.Reachable.init natDumps
    natLoads "a" fnConst [] natDumps natLoads "b" fnConst

/-- C5: on every reachable registry, `start_tasks` succeeds and returns
exactly the registered names whose task has an empty dependency list. -/
theorem start_tasks_are_empty_dep_tasks (g : TaskGraph) (hg : g.Reachable) :
    ∃ l, g.start_tasks = some l ∧
      ∀ n, n ∈ l ↔ ∃ t, g.findName n = some t ∧ g.findDeps t = some [] :=
  start_tasks_char g (inv_of_reachable hg)

theorem start_tasks_are_empty_dep_tasks_witness :
    ∃ l, Gab.start_tasks = some l ∧
      ∀ n, n ∈ l ↔ ∃ t, Gab.findName n = some t ∧ Gab.findDeps t = some [] :=
  start_tasks_are_empty_dep_tasks Gab
    (TaskGraph.Reachable.step natDumps natLoads "b" fnConst [tA]
      (TaskGraph.Reachable.step natDumps natLoads "a" fnConst []
        TaskGraph.Reachable.init))

/-- C6: on every reachable registry, `end_tasks` succeeds and returns
exactly the registered names that appear in no registered task's dependency
list — all task names minus the names occurring in dependency lists. -/
theorem end_tasks_are_non_dependency_names (g : TaskGraph) (hg : g.Reachable) :
    ∃ s, g.end_tasks = some s ∧
      ∀ n, n ∈ s ↔ (∃ t, g.findName n = some t) ∧ ¬ DepName g n :=
  end_tasks_char g (inv_of_reachable hg)

theorem end_tasks_are_non_dependency_names_witness :
    ∃ s, Gab.end_tasks = some s ∧
      ∀ n, n ∈ s ↔ (∃ t, Gab.findName n = some t) ∧ ¬ DepName Gab n :=
  end_tasks_are_non_dependency_names Gab
    (TaskGraph.Reachable.step natDumps natLoads "b" fnConst [tA]
      (TaskGraph.Reachable.step natDumps natLoads "a" fnConst []
        TaskGraph.Reachable.init))

/-- C7 fails on the code: after re-registering the name "a", the ghost key
of `task_deps` is no longer the task that `task_names` holds under its
name. -/
theorem task_maps_sync_counterexample :
    ¬ ∀ p ∈ Gghost.task_deps, Gghost.findName p.1.name = some p.1 := by
  intro h
  have hmem : (tA, ([] : List Task)) ∈ Gghost.task_deps := by
    have hshape : Gghost.task_deps = [(tA, []), (addA2.1, [])] := rfl
    rw [hshape]
    exact List.mem_cons_self _ _
  have hfind := h (tA, []) hmem
  simp only at hfind
  rw [show tA.name = "a" from rfl] at hfind
  rw [show Gghost.findName "a" = some addA2.1 from rfl] at hfind
  exact absurd (congrArg Task.id (Option.some.inj hfind)) (by decide)

/-- C7 amended: the sync invariant holds in the `task_names`-to-`task_deps`
direction — names are keyed uniquely, each entry is keyed by its task's own
name, and each such task is a key of `task_deps` with its dependency list
retrievable by identity.  The converse direction (every `task_deps` key
reachable from `task_names`) is refuted by the ghost counterexample. -/
theorem task_maps_sync_amended (g : TaskGraph) (hg : g.Reachable) :
    (g.task_names.map Prod.fst).Nodup ∧
    ∀ q ∈ g.task_names, q.2.name = q.1 ∧
      ∃ ds, (q.2, ds) ∈ g.task_deps ∧ g.findDeps q.2 = some ds := by
  have hinv := inv_of_reachable hg
  refine ⟨?_, fun q hq => names_entry hinv q hq⟩
  rw [hinv.names_eq, nameIndex]
  exact dictOfPairs_keys_nodup _ _

theorem task_maps_sync_amended_witness :
    (Gghost.task_names.map Prod.fst).Nodup ∧
    ∀ q ∈ Gghost.task_names, q.2.name = q.1 ∧
      ∃ ds, (q.2, ds) ∈ Gghost.task_deps ∧ Gghost.findDeps q.2 = some ds :=
  task_maps_sync_amended Gghost
    (TaskGraph.Reachable.step natDumps natLoads "a" fnConst []
      (TaskGraph.Reachable.step natDumps natLoads "a" fnConst []
        TaskGraph.Reachable.init))

/-- C8: re-registering an existing name replaces the name-map entry with the
new task (of distinct identity) while the old task's entry and edges in
`task_deps` are untouched, and the old task becomes unreachable by name. -/
theorem readd_leaves_ghost {V : Type} (g : TaskGraph) (hg : g.Reachable)
    (dumps : V → List Nat) (loads : List Nat → Option V) (funName : String)
    (fn : List V → List (String × V) → V) (deps : List Task) (tOld : Task)
    (hold : g.findName funName = some tOld) :
    ((g.add_task dumps loads funName fn deps).2).findName funName =
      some (g.add_task dumps loads funName fn deps).1 ∧
    (g.add_task dumps loads funName fn deps).1.id ≠ tOld.id ∧
    (∀ ds, (tOld, ds) ∈ g.task_deps →
      (tOld, ds) ∈ (g.add_task dumps loads funName fn deps).2.task_deps) ∧
    ((g.add_task dumps loads funName fn deps).2).findDeps tOld =
      g.findDeps tOld ∧
    (∀ n t', ((g.add_task dumps loads funName fn deps).2).findName n =
      some t' → t'.id ≠ tOld.id) := by
  have hinv := inv_of_reachable hg
  obtain ⟨h1, -, -⟩ := dependencies_after_add g hinv dumps loads funName fn deps
  obtain ⟨hnameOld0, ds0, hds0mem0, -⟩ :=
    names_entry hinv (funName, tOld) ((findName_iff_mem hinv funName tOld).mp hold)
  have hnameOld : tOld.name = funName := hnameOld0
  have hds0mem : (tOld, ds0) ∈ g.task_deps := hds0mem0
  have htOldlt : tOld.id < g.nextId := hinv.ids_lt (tOld, ds0) hds0mem
  refine ⟨h1, ?_, ?_, ?_, ?_⟩
  · rw [add_task_fst]
    show g.nextId ≠ tOld.id
    omega
  · intro ds hds
    rw [add_task_deps_eq g dumps loads funName fn deps hinv]
    exact List.mem_append_left _ hds
  · show dictFind Task.id _ tOld.id = dictFind Task.id g.task_deps tOld.id
    rw [add_task_deps_eq g dumps loads funName fn deps hinv]
    refine dictFind_append_ne Task.id g.task_deps _ deps tOld.id ?_
    rw [add_task_fst]
    show tOld.id ≠ g.nextId
    omega
  · intro n t' hf
    by_cases hn : n = funName
    · subst hn
      rw [h1] at hf
      have ht' : (g.add_task dumps loads n fn deps).1 = t' := by
        injection hf
      rw [← ht', add_task_fst]
      show g.nextId ≠ tOld.id
      omega
    · have hstable : ((g.add_task dumps loads funName fn deps).2).findName n =
          g.findName n := by
        show dictFind (fun s => s) _ n = dictFind (fun s => s) g.task_names n
        rw [add_task_names_eq]
        exact dictFind_insert_ne (fun s : String => s) g.task_names funName _
          n hn
      rw [hstable] at hf
      intro hid
      obtain ⟨hnamet0, ds', hds'mem0, -⟩ :=
        names_entry hinv (n, t') ((findName_iff_mem hinv n t').mp hf)
      have hnamet' : t'.name = n := hnamet0
      have hds'mem : (t', ds') ∈ g.task_deps := hds'mem0
      have hpq : ((t', ds') : Task × List Task) = (tOld, ds0) :=
        nodup_key_entries Task.id g.task_deps hinv.ids_nodup _ _ hds'mem
          hds0mem hid
      apply hn
      rw [← hnamet', show t' = tOld from congrArg Prod.fst hpq]
      exact hnameOld

theorem readd_leaves_ghost_witness :
    Gghost.findName "a" = some addA2.1 ∧
    addA2.1.id ≠ tA.id ∧
    (∀ ds, (tA, ds) ∈ Ga.task_deps → (tA, ds) ∈ Gghost.task_deps) ∧
    Gghost.findDeps tA = Ga.findDeps tA ∧
    (∀ n t', Gghost.findName n = some t' → t'.id ≠ tA.id) :=
  readd_leaves_ghost Ga
    (TaskGraph.Reachable.step natDumps natLoads "a" fnConst []
      TaskGraph.Reachable.init)
    natDumps natLoads "a" fnConst [] tA rfl

/-- C9: `summary` has one entry per registered name, holding exactly the
ordered dependency names that `dependencies` reports for that name. -/
theorem summary_matches_dependencies (g : TaskGraph) (hg : g.Reachable) :
    ∀ n l, summaryFind g.summary n = some l ↔ g.dependencies n = .ok l := by
  have hinv := inv_of_reachable hg
  intro n l
  have hs : summaryFind g.summary n =
      (lastFind g.task_deps n).map (fun p => p.2.map Task.name) := by
    show dictFind (fun s => s) (dictOfPairs _ g.task_deps) n = _
    exact dictOfPairs_find _ _ _
  have hn : g.findName n = (lastFind g.task_deps n).map (fun p => p.1) := by
    show dictFind (fun s => s) g.task_names n = _
    rw [hinv.names_eq]
    exact dictOfPairs_find _ _ _
  cases hlf : lastFind g.task_deps n with
  | none =>
      rw [hlf, Option.map_none'] at hs hn
      rw [hs]
      simp only [TaskGraph.dependencies, hn]
      constructor
      · intro h; cases h
      · intro h; cases h
  | some p =>
      rw [hlf, Option.map_some'] at hs hn
      obtain ⟨hpmem, hpname⟩ := lastFind_mem g.task_deps n p hlf
      have hfd : g.findDeps p.1 = some p.2 := by
        show dictFind Task.id g.task_deps p.1.id = some p.2
        exact dictFind_of_mem Task.id g.task_deps p.1 p.2
          (by cases p; exact hpmem) hinv.ids_nodup
      rw [hs]
      simp only [TaskGraph.dependencies, hn, hfd]
      constructor
      · intro h
        have hle : p.2.map Task.name = l := by injection h
        rw [hle]
      · intro h
        have hle : p.2.map Task.name = l := by injection h
        rw [hle]

theorem summary_matches_dependencies_witness :
    summaryFind Gghost.summary "a" = some [] ↔
      Gghost.dependencies "a" = .ok [] :=
  summary_matches_dependencies Gghost
    (TaskGraph.Reachable.step natDumps natLoads "a" fnConst []
      (TaskGraph.Reachable.step natDumps natLoads "a" fnConst []
        TaskGraph.Reachable.init))
    "a" []

/-- C10: a registered task with an empty dependency list whose name occurs
in no other task's dependency list is both a start task and an end task. -/
theorem isolated_task_is_source_and_sink (g : TaskGraph) (hg : g.Reachable)
    (n : String) (t : Task) (hname : g.findName n = some t)
    (hdeps : g.findDeps t = some [])
    (hnodep : ∀ n' t' ds d, n' ≠ n → g.findName n' = some t' →
      g.findDeps t' = some ds → d ∈ ds → d.name ≠ n) :
    (∃ l, g.start_tasks = some l ∧ n ∈ l) ∧
    (∃ s, g.end_tasks = some s ∧ n ∈ s) := by
  have hinv := inv_of_reachable hg
  obtain ⟨l, hl, hmeml⟩ := start_tasks_char g hinv
  obtain ⟨s, hs, hmems⟩ := end_tasks_char g hinv
  refine ⟨⟨l, hl, (hmeml n).mpr ⟨t, hname, hdeps⟩⟩,
    ⟨s, hs, (hmems n).mpr ⟨⟨t, hname⟩, ?_⟩⟩⟩
  rintro ⟨n', t', ds, d, hf, hfd, hd, hdn⟩
  by_cases hne : n' = n
  · subst hne
    rw [hname] at hf
    have ht : t = t' := by injection hf
    rw [← ht, hdeps] at hfd
    have hnil : ([] : List Task) = ds := by injection hfd
    rw [← hnil] at hd
    cases hd
  · exact hnodep n' t' ds d hne hf hfd hd hdn

theorem isolated_task_is_source_and_sink_witness :
    (∃ l, Ga.start_tasks = some l ∧ "a" ∈ l) ∧
    (∃ s, Ga.end_tasks = some s ∧ "a" ∈ s) :=
  isolated_task_is_source_and_sink Ga
    (TaskGraph.Reachable.step natDumps natLoads "a" fnConst []
      TaskGraph.Reachable.init)
    "a" tA rfl rfl
    (by
      intro n' t' ds d hne hf hfd hd
      exfalso
      have hnone : Ga.findName n' = none := by
        show dictFind (fun s => s) Ga.task_names n' = none
        have hshape : Ga.task_names = [("a", tA)] := rfl
        rw [hshape, dictFind]
        rw [if_neg (fun hcontra => hne (Eq.symm hcontra))]
        rfl
      rw [hnone] at hf
      cases hf)

end Sched
